import Mathlib

/-!
Shallow embedding of the benchmark metrics module `surya/benchmark/metrics.py`.

Numbers are modelled by `ℚ` (Python ints and floats enter the module only through
exact arithmetic on box coordinates at benchmark scale).  Pixel sets are
`Finset (ℤ × ℤ)`.  A Python expression that can raise `ZeroDivisionError` or an
indexing error is modelled with `Option`: `none` is the raised fault.
-/

namespace Surya

/-- A bounding box `(x1, y1, x2, y2)`, mirroring the 4-sequences the module consumes. -/
structure Box where
  x1 : ℚ
  y1 : ℚ
  x2 : ℚ
  y2 : ℚ
deriving DecidableEq

/-- A pixel coordinate, as produced by `intersection_pixels`. -/
abbrev Pixel := ℤ × ℤ

/-- Python `int(q)` on a real number: truncation toward zero. -/
def pyInt (q : ℚ) : ℤ := if 0 ≤ q then ⌊q⌋ else ⌈q⌉

/-- A box whose four coordinates are integers. -/
def intBox (a b c d : ℤ) : Box := ⟨(a : ℚ), (b : ℚ), (c : ℚ), (d : ℚ)⟩

/-- Python true division, which raises `ZeroDivisionError` on a zero divisor. -/
def pyDiv (a b : ℚ) : Option ℚ := if b = 0 then none else some (a / b)

/-- `box_area(box)`: `(box[2] - box[0]) * (box[3] - box[1])`. -/
def box_area (box : Box) : ℚ := (box.x2 - box.x1) * (box.y2 - box.y1)

/-- `intersection_area(box1, box2)`: area of the overlap rectangle, `0` when inverted. -/
def intersection_area (box1 box2 : Box) : ℚ :=
  let x_left := max box1.x1 box2.x1
  let y_top := max box1.y1 box2.y1
  let x_right := min box1.x2 box2.x2
  let y_bottom := min box1.y2 box2.y2
  if x_right < x_left ∨ y_bottom < y_top then 0
  else (x_right - x_left) * (y_bottom - y_top)

/-- `calculate_iou(box1, box2, box1_only)`.  The source guards the division with
`if union == 0: return 0`, so the returned value is total; see
`calculate_iou_checked` for the variant that exhibits the guarded division. -/
def calculate_iou (box1 box2 : Box) (box1_only : Bool) : ℚ :=
  let intersection := intersection_area box1 box2
  let union := if box1_only then box_area box1
               else box_area box1 + box_area box2 - intersection
  if union = 0 then 0 else intersection / union

/-- `calculate_iou` with the division step given Python's faulting semantics
(`pyDiv`), before the `union == 0` guard is taken into account. -/
def calculate_iou_checked (box1 box2 : Box) (box1_only : Bool) : Option ℚ :=
  let intersection := intersection_area box1 box2
  let union := if box1_only then box_area box1
               else box_area box1 + box_area box2 - intersection
  if union = 0 then some 0 else pyDiv intersection union

/-- `intersection_pixels(box1, box2)`: the grid points of the overlap rectangle,
`int()`-truncated bounds, `x` in `[int(x_left), int(x_right))` and `y` in
`[int(y_top), int(y_bottom))`; empty when the raw rectangle is inverted. -/
def intersection_pixels (box1 box2 : Box) : Finset Pixel :=
  let x_left := max box1.x1 box2.x1
  let y_top := max box1.y1 box2.y1
  let x_right := min box1.x2 box2.x2
  let y_bottom := min box1.y2 box2.y2
  if x_right < x_left ∨ y_bottom < y_top then ∅
  else (Finset.Ico (pyInt x_left) (pyInt x_right)) ×ˢ (Finset.Ico (pyInt y_top) (pyInt y_bottom))

/-- The loop of `calculate_coverage`: accumulates the union of covered pixels and
the list `double_coverage` (the intersection of each new box's pixels with the
pixels already covered), one entry per other box. -/
def coverageLoop (box : Box) : List Box → Finset Pixel → List (Finset Pixel) →
    Finset Pixel × List (Finset Pixel)
  | [], covered, dc => (covered, dc)
  | ob :: rest, covered, dc =>
      let ia := intersection_pixels box ob
      coverageLoop box rest (covered ∪ ia) (dc ++ [covered ∩ ia])

/-- `calculate_coverage(box, other_boxes, penalize_double)`: exact pixel-set
coverage.  The penalty subtracted when `penalize_double` is
`len(double_coverage)`, the length of the accumulated list — one entry per
other box.  The covered count is clamped at `0` by `max`. -/
def calculate_coverage (box : Box) (other_boxes : List Box) (penalize_double : Bool) : ℚ :=
  let area := box_area box
  if area = 0 then 0
  else
    let r := coverageLoop box other_boxes ∅ []
    let penalty : ℕ := if penalize_double then r.2.length else 0
    ((max 0 ((r.1.card : ℤ) - (penalty : ℤ)) : ℤ) : ℚ) / area

/-- `calculate_coverage_fast(box, other_boxes, penalize_double)`: vectorized sum of
per-box intersection areas over the target area, clamped at `1.0`.  On an empty
`other_boxes` with a non-zero-area target, `np.array([])[:, 0]` raises an
`IndexError`, modelled as `none`.  `penalize_double` is accepted and ignored. -/
def calculate_coverage_fast (box : Box) (other_boxes : List Box)
    (penalize_double : Bool) : Option ℚ :=
  let area := box_area box
  if area = 0 then some 0
  else if other_boxes = [] then none
  else
    let total := (other_boxes.map (fun ob =>
      (max 0 (min box.x2 ob.x2 - max box.x1 ob.x1)) *
      (max 0 (min box.y2 ob.y2 - max box.y1 ob.y1)))).sum
    some (min 1 (total / area))

/-- A `Match` triple `(reference_index_or_none, prediction_index_or_none, iou)`. -/
structure Match where
  ref : Option ℕ
  pred : Option ℕ
  iou : ℚ
deriving DecidableEq

/-- The IoU matrix of `match_boxes` as a function of an index pair `(i, j)`:
`calculate_iou(references[i], preds[j], box1_only=True)`. -/
def iouMatrixFn (preds references : List Box) (p : ℕ × ℕ) : ℚ :=
  calculate_iou (references.getD p.1 ⟨0, 0, 0, 0⟩) (preds.getD p.2 ⟨0, 0, 0, 0⟩) true

/-- All index pairs of the IoU matrix in row-major (flattened) order. -/
def allPairs (numActual numPredicted : ℕ) : List (ℕ × ℕ) :=
  (List.range numActual).bind (fun i => (List.range numPredicted).map (fun j => (i, j)))

/-- Insertion step of the descending sort of matrix entries. -/
def insertDescBy (key : ℕ × ℕ → ℚ) (p : ℕ × ℕ) : List (ℕ × ℕ) → List (ℕ × ℕ)
  | [] => [p]
  | q :: rest => if key q ≤ key p then p :: q :: rest else q :: insertDescBy key p rest

/-- `np.argsort(iou_matrix, axis=None)[::-1]`: the matrix entries sorted by IoU
descending.  `np.argsort`'s default quicksort fixes no tie order, so one
deterministic order is chosen here; the theorems below do not depend on it. -/
def sortDescBy (key : ℕ × ℕ → ℚ) (l : List (ℕ × ℕ)) : List (ℕ × ℕ) :=
  l.foldr (insertDescBy key) []

/-- The greedy assignment walk of `match_boxes`: accept a pair when neither index
is already assigned. -/
def greedyAssign : List (ℕ × ℕ) → List ℕ → List ℕ → List (ℕ × ℕ)
  | [], _, _ => []
  | (i, j) :: rest, assignedA, assignedP =>
      if i ∉ assignedA ∧ j ∉ assignedP then
        (i, j) :: greedyAssign rest (i :: assignedA) (j :: assignedP)
      else greedyAssign rest assignedA assignedP

/-- `if iou_val > .95: iou_val = 1.0`. -/
def snapIou (v : ℚ) : ℚ := if 0.95 < v then 1 else v

/-- The accepted `(reference, prediction)` pairs of `match_boxes`, in acceptance
order. -/
def matchedPairs (preds references : List Box) : List (ℕ × ℕ) :=
  greedyAssign (sortDescBy (iouMatrixFn preds references)
    (allPairs references.length preds.length)) [] []

/-- `match_boxes(preds, references)`: the accepted pairs (IoU snapped above 0.95),
then a `(i, None, -1.0)` match per unassigned reference and a `(None, j, 0.0)`
match per unassigned prediction.  Python iterates those leftovers as `set`s with
unspecified order; index order is chosen here, and the theorems below are
order-insensitive. -/
def match_boxes (preds references : List Box) : List Match :=
  let matched := matchedPairs preds references
  matched.map (fun p => (⟨some p.1, some p.2, snapIou (iouMatrixFn preds references p)⟩ : Match))
    ++ ((List.range references.length).filter
        (fun i => decide (i ∉ matched.map Prod.fst))).map
        (fun i => (⟨some i, none, -1⟩ : Match))
    ++ ((List.range preds.length).filter
        (fun j => decide (j ∉ matched.map Prod.snd))).map
        (fun j => (⟨none, some j, 0⟩ : Match))

/-- `penalized_iou_score(preds, references)`: mean of all match IoUs; the division
raises when the match list is empty. -/
def penalized_iou_score (preds references : List Box) : Option ℚ :=
  let ms := match_boxes preds references
  pyDiv ((ms.map Match.iou).sum) ((ms.length : ℚ))

/-- Option-threaded map, propagating the first fault. -/
def mapOption (f : α → Option β) : List α → Option (List β)
  | [] => some []
  | x :: xs =>
      match f x, mapOption f xs with
      | some y, some ys => some (y :: ys)
      | _, _ => none

/-- The `{"precision": …, "recall": …}` result mapping. -/
structure PRResult where
  precision : ℚ
  «recall» : ℚ
deriving DecidableEq

/-- `precision_recall(preds, references, threshold, workers, penalize_double)`.
The worker pool evaluates pure per-box coverages, so it is modelled as an
order-preserving map; `workers` is accepted and ignored.  The precision
direction passes `penalize_double` through `partial`; the recall direction calls
the selected coverage function without it, so that argument is its default
`False`. -/
def precision_recall (preds references : List Box) (threshold : ℚ) (workers : ℕ)
    (penalize_double : Bool) : Option PRResult :=
  if references.length = 0 then some ⟨1, 1⟩
  else if preds.length = 0 then some ⟨0, 0⟩
  else
    let covFn : Box → List Box → Bool → Option ℚ :=
      if penalize_double then fun b obs pd => some (calculate_coverage b obs pd)
      else fun b obs pd => calculate_coverage_fast b obs pd
    match mapOption (fun p => covFn p references penalize_double) preds,
          mapOption (fun r => covFn r preds false) references with
    | some precision_iou, some reference_iou =>
        let precision_classes := precision_iou.map (fun i => if threshold < i then (1 : ℕ) else 0)
        let recall_classes := reference_iou.map (fun i => if threshold < i then (1 : ℕ) else 0)
        some ⟨(precision_classes.sum : ℚ) / (precision_classes.length : ℚ),
              (recall_classes.sum : ℚ) / (recall_classes.length : ℚ)⟩
    | _, _ => none

/-- The value returned by `mean_coverage`: either the bare number `0` or the
`{"coverage": …}` mapping. -/
inductive MeanCoverageResult where
  | scalar (v : ℚ)
  | dict (coverage : ℚ)
deriving DecidableEq

/-- `mean_coverage(preds, references)`: exact coverage of every reference box by
the predictions and of every prediction box by the references; returns the bare
number `0` when there are no comparisons, else the `{"coverage": mean}` dict. -/
def mean_coverage (preds references : List Box) : MeanCoverageResult :=
  let coverages :=
    references.map (fun box1 => calculate_coverage box1 preds false)
      ++ preds.map (fun box2 => calculate_coverage box2 references false)
  if coverages.length = 0 then .scalar 0
  else .dict (coverages.sum / (coverages.length : ℚ))

/-- The `pairs` list of `rank_accuracy`: `(i, j, preds[i] > preds[j])` for all
`i ≠ j`, in loop order. -/
def rank_pairs (preds : List ℚ) : List (ℕ × ℕ × Bool) :=
  (List.range preds.length).bind (fun i =>
    (List.range preds.length).filterMap (fun j =>
      if i = j then none
      else some (i, j, decide (preds.getD j 0 < preds.getD i 0))))

/-- `rank_accuracy(preds, references)`: count the ordered reference pairs whose
order relation appears in `pairs`, divided by `len(pairs)`; the division raises
when `pairs` is empty. -/
def rank_accuracy (preds references : List ℚ) : Option ℚ :=
  let pairs := rank_pairs preds
  let correct : ℕ :=
    ((List.range references.length).map (fun i =>
      ((List.range references.length).filter (fun j =>
        decide ((i, j, decide (references.getD j 0 < references.getD i 0)) ∈ pairs))).length)).sum
  pyDiv (correct : ℚ) ((pairs.length : ℕ) : ℚ)

/-- Modelled from the spec claim on the double-coverage penalty: the penalty
counts only those other boxes (in iteration order) whose pixel intersection with
the already-accumulated covered set is non-empty.  Stated for comparison with
`calculate_coverage`, which subtracts the full list length instead. -/
def calculate_coverage_claim (box : Box) (other_boxes : List Box) : ℚ :=
  let area := box_area box
  if area = 0 then 0
  else
    let r := coverageLoop box other_boxes ∅ []
    let penalty : ℕ := (r.2.filter (fun s => decide (s ≠ ∅))).length
    ((max 0 ((r.1.card : ℤ) - (penalty : ℤ)) : ℤ) : ℚ) / area

/-- Modelled from the spec claim on `precision_recall` with `penalize_double=True`:
both the per-prediction and the per-reference coverages are claimed to be
computed by the exact engine with the double-coverage penalty enabled.  Stated
for comparison with `precision_recall`. -/
def precision_recall_claim (preds references : List Box) (threshold : ℚ) : Option PRResult :=
  if references.length = 0 then some ⟨1, 1⟩
  else if preds.length = 0 then some ⟨0, 0⟩
  else
    let precision_iou := preds.map (fun p => calculate_coverage p references true)
    let reference_iou := references.map (fun r => calculate_coverage r preds true)
    let precision_classes := precision_iou.map (fun i => if threshold < i then (1 : ℕ) else 0)
    let recall_classes := reference_iou.map (fun i => if threshold < i then (1 : ℕ) else 0)
    some ⟨(precision_classes.sum : ℚ) / (precision_classes.length : ℚ),
          (recall_classes.sum : ℚ) / (recall_classes.length : ℚ)⟩

/-! ### Generic list helpers -/

theorem sum_map_range (f : ℕ → ℕ) (n : ℕ) :
    ((List.range n).map f).sum = ∑ i ∈ Finset.range n, f i := by
  induction n with
  | zero => simp
  | succ n ih => rw [List.range_succ, Finset.sum_range_succ, List.map_append, List.sum_append, ih]; simp

theorem list_sum_all_one (l : List ℚ) (h : ∀ x ∈ l, x = 1) : l.sum = l.length := by
  induction l with
  | nil => simp
  | cons a t ih =>
      have ha := h a (List.mem_cons_self a t)
      have ht := ih (fun x hx => h x (List.mem_cons_of_mem a hx))
      simp [ha, ht, add_comm]

theorem mapOption_map (f : α → β) (l : List α) :
    mapOption (fun x => some (f x)) l = some (l.map f) := by
  induction l with
  | nil => rfl
  | cons a t ih => simp [mapOption, ih]

theorem sum_indicator_countP (q : α → Prop) [DecidablePred q] (l : List α) :
    (l.map (fun x => if q x then (1 : ℕ) else 0)).sum = l.countP (fun x => decide (q x)) := by
  induction l with
  | nil => rfl
  | cons a t ih =>
      by_cases h : q a <;> simp [List.countP_cons, h, ih, add_comm]

theorem countP_eq_ite_of_nodup (l : List ℕ) (hl : l.Nodup) (i : ℕ) :
    l.countP (fun x => decide (x = i)) = if i ∈ l then 1 else 0 := by
  induction l with
  | nil => simp
  | cons a t ih =>
      rw [List.nodup_cons] at hl
      rw [List.countP_cons, ih hl.2]
      by_cases hai : a = i
      · subst hai
        simp [hl.1]
      · simp [hai, Ne.symm hai]

/-! ### Python `int()` truncation -/

theorem pyInt_intCast (n : ℤ) : pyInt (n : ℚ) = n := by
  unfold pyInt
  split
  · exact Int.floor_intCast n
  · exact Int.ceil_intCast n

theorem le_pyInt (n : ℤ) (q : ℚ) (h : (n : ℚ) ≤ q) : n ≤ pyInt q := by
  unfold pyInt
  split
  · exact Int.le_floor.mpr h
  · exact_mod_cast h.trans (Int.le_ceil q)

theorem pyInt_le (n : ℤ) (q : ℚ) (h : q ≤ (n : ℚ)) : pyInt q ≤ n := by
  unfold pyInt
  split
  · exact_mod_cast (Int.floor_le q).trans h
  · exact Int.ceil_le.mpr h

/-! ### Geometry bounds -/

theorem intersection_area_nonneg (box1 box2 : Box) : 0 ≤ intersection_area box1 box2 := by
  unfold intersection_area
  dsimp only
  split
  · exact le_refl 0
  · next h =>
      push_neg at h
      exact mul_nonneg (by linarith [h.1]) (by linarith [h.2])

theorem intersection_area_le_box1 (box1 box2 : Box)
    (hx : box1.x1 ≤ box1.x2) (hy : box1.y1 ≤ box1.y2) :
    intersection_area box1 box2 ≤ box_area box1 := by
  unfold intersection_area box_area
  dsimp only
  split
  · exact mul_nonneg (by linarith) (by linarith)
  · next h =>
      push_neg at h
      have h1 : min box1.x2 box2.x2 - max box1.x1 box2.x1 ≤ box1.x2 - box1.x1 := by
        have := min_le_left box1.x2 box2.x2
        have := le_max_left box1.x1 box2.x1
        linarith
      have h2 : min box1.y2 box2.y2 - max box1.y1 box2.y1 ≤ box1.y2 - box1.y1 := by
        have := min_le_left box1.y2 box2.y2
        have := le_max_left box1.y1 box2.y1
        linarith
      exact mul_le_mul h1 h2 (by linarith [h.2]) (by linarith)

theorem calculate_iou_box1_bounds (box1 box2 : Box)
    (hx : box1.x1 ≤ box1.x2) (hy : box1.y1 ≤ box1.y2) :
    0 ≤ calculate_iou box1 box2 true ∧ calculate_iou box1 box2 true ≤ 1 := by
  have harea : (0 : ℚ) ≤ box_area box1 := mul_nonneg (by linarith) (by linarith)
  have hnn := intersection_area_nonneg box1 box2
  have hle := intersection_area_le_box1 box1 box2 hx hy
  have hrw : calculate_iou box1 box2 true
      = if box_area box1 = 0 then 0 else intersection_area box1 box2 / box_area box1 := by
    simp [calculate_iou]
  rw [hrw]
  split
  · exact ⟨le_refl 0, zero_le_one⟩
  · next hne =>
      have hpos : (0 : ℚ) < box_area box1 := lt_of_le_of_ne harea (Ne.symm hne)
      exact ⟨div_nonneg hnn harea, (div_le_one hpos).mpr hle⟩

theorem snapIou_bounds (v : ℚ) (h0 : 0 ≤ v) (h1 : v ≤ 1) :
    0 ≤ snapIou v ∧ snapIou v ≤ 1 := by
  unfold snapIou
  split
  · exact ⟨zero_le_one, le_refl 1⟩
  · exact ⟨h0, h1⟩

/-! ### Pixel-set lemmas -/

theorem intersection_pixels_subset_int (a b c d : ℤ) (ob : Box) :
    intersection_pixels (intBox a b c d) ob ⊆ Finset.Ico a c ×ˢ Finset.Ico b d := by
  unfold intersection_pixels intBox
  dsimp only
  split
  · intro p hp
    simp at hp
  · intro p hp
    rw [Finset.mem_product, Finset.mem_Ico, Finset.mem_Ico] at hp ⊢
    obtain ⟨⟨hx1, hx2⟩, hy1, hy2⟩ := hp
    have ha : a ≤ pyInt (max (a : ℚ) ob.x1) := le_pyInt _ _ (le_max_left _ _)
    have hc : pyInt (min (c : ℚ) ob.x2) ≤ c := pyInt_le _ _ (min_le_left _ _)
    have hb : b ≤ pyInt (max (b : ℚ) ob.y1) := le_pyInt _ _ (le_max_left _ _)
    have hd : pyInt (min (d : ℚ) ob.y2) ≤ d := pyInt_le _ _ (min_le_left _ _)
    exact ⟨⟨le_trans ha hx1, lt_of_lt_of_le hx2 hc⟩, ⟨le_trans hb hy1, lt_of_lt_of_le hy2 hd⟩⟩

theorem intersection_pixels_int (a b c d e f g h : ℤ) :
    intersection_pixels (intBox a b c d) (intBox e f g h)
      = Finset.Ico (max a e) (min c g) ×ˢ Finset.Ico (max b f) (min d h) := by
  unfold intersection_pixels intBox
  dsimp only
  rw [← Int.cast_max (a := a) (b := e), ← Int.cast_max (a := b) (b := f),
      ← Int.cast_min (a := c) (b := g), ← Int.cast_min (a := d) (b := h),
      pyInt_intCast, pyInt_intCast, pyInt_intCast, pyInt_intCast]
  split
  · next hlt =>
      rcases hlt with hx | hy
      · rw [Int.cast_lt] at hx
        rw [Finset.Ico_eq_empty (by omega), Finset.empty_product]
      · rw [Int.cast_lt] at hy
        rw [Finset.Ico_eq_empty (a := max b f) (by omega), Finset.product_empty]
  · rfl

theorem coverageLoop_fst_mem (box : Box) (l : List Box) :
    ∀ (covered : Finset Pixel) (dc : List (Finset Pixel)) (p : Pixel),
      p ∈ (coverageLoop box l covered dc).1
        ↔ p ∈ covered ∨ ∃ ob ∈ l, p ∈ intersection_pixels box ob := by
  induction l with
  | nil => intro covered dc p; simp [coverageLoop]
  | cons ob rest ih =>
      intro covered dc p
      rw [coverageLoop, ih]
      simp only [Finset.mem_union, List.mem_cons]
      constructor
      · rintro ((h | h) | ⟨b', hb', hp⟩)
        · exact Or.inl h
        · exact Or.inr ⟨ob, Or.inl rfl, h⟩
        · exact Or.inr ⟨b', Or.inr hb', hp⟩
      · rintro (h | ⟨b', (rfl | hb'), hp⟩)
        · exact Or.inl (Or.inl h)
        · exact Or.inl (Or.inr hp)
        · exact Or.inr ⟨b', hb', hp⟩

theorem coverageLoop_snd_length (box : Box) (l : List Box) :
    ∀ (covered : Finset Pixel) (dc : List (Finset Pixel)),
      (coverageLoop box l covered dc).2.length = dc.length + l.length := by
  induction l with
  | nil => intro covered dc; simp [coverageLoop]
  | cons ob rest ih =>
      intro covered dc
      rw [coverageLoop, ih]
      simp
      omega

theorem coverageLoop_fst_subset_int (a b c d : ℤ) (l : List Box) :
    (coverageLoop (intBox a b c d) l ∅ []).1 ⊆ Finset.Ico a c ×ˢ Finset.Ico b d := by
  intro p hp
  rw [coverageLoop_fst_mem] at hp
  rcases hp with h | ⟨ob, _, hp⟩
  · simp at h
  · exact intersection_pixels_subset_int a b c d ob hp

/-! ### Exact coverage: closed form and bounds -/

theorem calculate_coverage_eq (box : Box) (l : List Box) (pd : Bool)
    (h : box_area box ≠ 0) :
    calculate_coverage box l pd
      = ((max 0 (((coverageLoop box l ∅ []).1.card : ℤ)
          - (if pd then (l.length : ℤ) else 0)) : ℤ) : ℚ) / box_area box := by
  rw [calculate_coverage]
  dsimp only
  rw [if_neg h, coverageLoop_snd_length]
  cases pd <;> simp

theorem calculate_coverage_int_bounds (a b c d : ℤ) (hac : a ≤ c) (hbd : b ≤ d)
    (l : List Box) (pd : Bool) :
    0 ≤ calculate_coverage (intBox a b c d) l pd
      ∧ calculate_coverage (intBox a b c d) l pd ≤ 1 := by
  by_cases h : box_area (intBox a b c d) = 0
  · rw [calculate_coverage]
    dsimp only
    rw [if_pos h]
    exact ⟨le_refl 0, zero_le_one⟩
  · rw [calculate_coverage_eq _ _ _ h]
    have harea : (0 : ℚ) ≤ box_area (intBox a b c d) := by
      unfold box_area intBox
      dsimp only
      have h1 : (a : ℚ) ≤ (c : ℚ) := by exact_mod_cast hac
      have h2 : (b : ℚ) ≤ (d : ℚ) := by exact_mod_cast hbd
      exact mul_nonneg (by linarith) (by linarith)
    have hpos : (0 : ℚ) < box_area (intBox a b c d) := lt_of_le_of_ne harea (Ne.symm h)
    set N : ℤ := max 0 (((coverageLoop (intBox a b c d) l ∅ []).1.card : ℤ)
        - (if pd then (l.length : ℤ) else 0)) with hN
    have hN0 : (0 : ℤ) ≤ N := le_max_left _ _
    have hcard : (coverageLoop (intBox a b c d) l ∅ []).1.card
        ≤ (Finset.Ico a c ×ˢ Finset.Ico b d).card :=
      Finset.card_le_card (coverageLoop_fst_subset_int a b c d l)
    have hprodcard : ((Finset.Ico a c ×ˢ Finset.Ico b d).card : ℚ)
        = box_area (intBox a b c d) := by
      rw [Finset.card_product, Int.card_Ico, Int.card_Ico]
      unfold box_area intBox
      dsimp only
      rw [Nat.cast_mul]
      rw [← Int.cast_natCast ((c - a).toNat), ← Int.cast_natCast ((d - b).toNat)]
      rw [Int.toNat_of_nonneg (by omega), Int.toNat_of_nonneg (by omega)]
      push_cast
      ring
    have hNcard : N ≤ ((coverageLoop (intBox a b c d) l ∅ []).1.card : ℤ) := by
      apply max_le
      · exact_mod_cast Nat.zero_le _
      · have : (0 : ℤ) ≤ (if pd then (l.length : ℤ) else 0) := by
          cases pd <;> simp
        omega
    have hNq : ((N : ℤ) : ℚ) ≤ box_area (intBox a b c d) := by
      rw [← hprodcard]
      have : ((N : ℤ) : ℚ) ≤ (((coverageLoop (intBox a b c d) l ∅ []).1.card : ℤ) : ℚ) := by
        exact_mod_cast hNcard
      refine this.trans ?_
      exact_mod_cast hcard
    constructor
    · apply div_nonneg _ harea
      exact_mod_cast hN0
    · exact (div_le_one hpos).mpr hNq

theorem calculate_coverage_self_int (a b c d : ℤ) (hac : a < c) (hbd : b < d)
    (l : List Box) (hmem : intBox a b c d ∈ l) :
    calculate_coverage (intBox a b c d) l false = 1 := by
  have harea : (0 : ℚ) < box_area (intBox a b c d) := by
    unfold box_area intBox
    dsimp only
    have h1 : (a : ℚ) < (c : ℚ) := by exact_mod_cast hac
    have h2 : (b : ℚ) < (d : ℚ) := by exact_mod_cast hbd
    exact mul_pos (by linarith) (by linarith)
  have hunion : (coverageLoop (intBox a b c d) l ∅ []).1
      = Finset.Ico a c ×ˢ Finset.Ico b d := by
    apply Finset.Subset.antisymm (coverageLoop_fst_subset_int a b c d l)
    intro p hp
    rw [coverageLoop_fst_mem]
    refine Or.inr ⟨intBox a b c d, hmem, ?_⟩
    rw [intersection_pixels_int]
    simpa using hp
  have hprodcard : ((Finset.Ico a c ×ˢ Finset.Ico b d).card : ℚ)
      = box_area (intBox a b c d) := by
    rw [Finset.card_product, Int.card_Ico, Int.card_Ico]
    unfold box_area intBox
    dsimp only
    rw [Nat.cast_mul]
    rw [← Int.cast_natCast ((c - a).toNat), ← Int.cast_natCast ((d - b).toNat)]
    rw [Int.toNat_of_nonneg (by omega), Int.toNat_of_nonneg (by omega)]
    push_cast
    ring
  rw [calculate_coverage_eq _ _ _ (ne_of_gt harea), hunion]
  simp only [Bool.false_eq_true, if_false]
  rw [sub_zero]
  have : max (0 : ℤ) ((Finset.Ico a c ×ˢ Finset.Ico b d).card : ℤ)
      = ((Finset.Ico a c ×ˢ Finset.Ico b d).card : ℤ) := by
    exact max_eq_right (by exact_mod_cast Nat.zero_le _)
  rw [this]
  rw [show (((((Finset.Ico a c ×ˢ Finset.Ico b d).card : ℤ)) : ℚ)) = ((Finset.Ico a c ×ˢ Finset.Ico b d).card : ℚ) from by push_cast; rfl]
  rw [hprodcard]
  exact div_self (ne_of_gt harea)

/-! ### Fast coverage bounds -/

theorem calculate_coverage_fast_bounds (box : Box) (l : List Box) (pd : Bool) (v : ℚ)
    (hx : box.x1 ≤ box.x2) (hy : box.y1 ≤ box.y2)
    (hv : calculate_coverage_fast box l pd = some v) :
    0 ≤ v ∧ v ≤ 1 := by
  rw [calculate_coverage_fast] at hv
  dsimp only at hv
  by_cases h : box_area box = 0
  · rw [if_pos h] at hv
    cases hv
    exact ⟨le_refl 0, zero_le_one⟩
  · rw [if_neg h] at hv
    by_cases hl : l = []
    · rw [if_pos hl] at hv
      cases hv
    · rw [if_neg hl] at hv
      cases hv
      have harea : (0 : ℚ) ≤ box_area box := mul_nonneg (by linarith) (by linarith)
      have hpos : (0 : ℚ) < box_area box := lt_of_le_of_ne harea (Ne.symm h)
      have htot : (0 : ℚ) ≤ (l.map (fun ob =>
          (max 0 (min box.x2 ob.x2 - max box.x1 ob.x1)) *
          (max 0 (min box.y2 ob.y2 - max box.y1 ob.y1)))).sum := by
        apply List.sum_nonneg
        intro x hx'
        rw [List.mem_map] at hx'
        obtain ⟨ob, _, rfl⟩ := hx'
        exact mul_nonneg (le_max_left _ _) (le_max_left _ _)
      constructor
      · exact le_min zero_le_one (div_nonneg htot (le_of_lt hpos))
      · exact min_le_left _ _

/-! ### Matcher machinery -/

theorem mem_insertDescBy (key : ℕ × ℕ → ℚ) (p q : ℕ × ℕ) (l : List (ℕ × ℕ)) :
    q ∈ insertDescBy key p l ↔ q = p ∨ q ∈ l := by
  induction l with
  | nil => simp [insertDescBy]
  | cons a t ih =>
      rw [insertDescBy]
      split <;> simp only [List.mem_cons, ih] <;> tauto

theorem mem_sortDescBy (key : ℕ × ℕ → ℚ) (l : List (ℕ × ℕ)) (q : ℕ × ℕ) :
    q ∈ sortDescBy key l ↔ q ∈ l := by
  unfold sortDescBy
  induction l with
  | nil => simp
  | cons a t ih =>
      rw [List.foldr_cons, mem_insertDescBy, ih, List.mem_cons]

theorem mem_allPairs (m n : ℕ) (p : ℕ × ℕ) :
    p ∈ allPairs m n ↔ p.1 < m ∧ p.2 < n := by
  unfold allPairs
  simp only [List.mem_bind, List.mem_range, List.mem_map]
  constructor
  · rintro ⟨i, hi, j, hj, rfl⟩
    exact ⟨hi, hj⟩
  · rintro ⟨h1, h2⟩
    exact ⟨p.1, h1, p.2, h2, rfl⟩

theorem greedyAssign_mem (l : List (ℕ × ℕ)) :
    ∀ (aA aP : List ℕ) (p : ℕ × ℕ), p ∈ greedyAssign l aA aP →
      p ∈ l ∧ p.1 ∉ aA ∧ p.2 ∉ aP := by
  induction l with
  | nil => intro aA aP p hp; simp [greedyAssign] at hp
  | cons hd tl ih =>
      intro aA aP p hp
      obtain ⟨i, j⟩ := hd
      rw [greedyAssign] at hp
      by_cases hcond : i ∉ aA ∧ j ∉ aP
      · rw [if_pos hcond] at hp
        rcases List.mem_cons.mp hp with rfl | hp'
        · exact ⟨List.mem_cons_self _ _, hcond.1, hcond.2⟩
        · have h := ih _ _ p hp'
          refine ⟨List.mem_cons_of_mem _ h.1, ?_, ?_⟩
          · exact fun hmem => h.2.1 (List.mem_cons_of_mem _ hmem)
          · exact fun hmem => h.2.2 (List.mem_cons_of_mem _ hmem)
      · rw [if_neg hcond] at hp
        have h := ih _ _ p hp
        exact ⟨List.mem_cons_of_mem _ h.1, h.2.1, h.2.2⟩

theorem greedyAssign_fst_nodup (l : List (ℕ × ℕ)) :
    ∀ (aA aP : List ℕ), ((greedyAssign l aA aP).map Prod.fst).Nodup := by
  induction l with
  | nil => intro aA aP; simp [greedyAssign]
  | cons hd tl ih =>
      intro aA aP
      obtain ⟨i, j⟩ := hd
      rw [greedyAssign]
      split
      · simp only [List.map_cons, List.nodup_cons]
        constructor
        · intro hmem
          rw [List.mem_map] at hmem
          obtain ⟨p, hp, hpi⟩ := hmem
          exact (greedyAssign_mem tl _ _ p hp).2.1 (hpi ▸ List.mem_cons_self i aA)
        · exact ih _ _
      · exact ih _ _

theorem greedyAssign_snd_nodup (l : List (ℕ × ℕ)) :
    ∀ (aA aP : List ℕ), ((greedyAssign l aA aP).map Prod.snd).Nodup := by
  induction l with
  | nil => intro aA aP; simp [greedyAssign]
  | cons hd tl ih =>
      intro aA aP
      obtain ⟨i, j⟩ := hd
      rw [greedyAssign]
      split
      · simp only [List.map_cons, List.nodup_cons]
        constructor
        · intro hmem
          rw [List.mem_map] at hmem
          obtain ⟨p, hp, hpj⟩ := hmem
          exact (greedyAssign_mem tl _ _ p hp).2.2 (hpj ▸ List.mem_cons_self j aP)
        · exact ih _ _
      · exact ih _ _

theorem matchedPairs_mem (preds references : List Box) (p : ℕ × ℕ)
    (hp : p ∈ matchedPairs preds references) :
    p.1 < references.length ∧ p.2 < preds.length := by
  unfold matchedPairs at hp
  have h := greedyAssign_mem _ _ _ p hp
  exact (mem_allPairs _ _ p).mp ((mem_sortDescBy _ _ p).mp h.1)

theorem matchedPairs_fst_nodup (preds references : List Box) :
    ((matchedPairs preds references).map Prod.fst).Nodup :=
  greedyAssign_fst_nodup _ _ _

theorem matchedPairs_snd_nodup (preds references : List Box) :
    ((matchedPairs preds references).map Prod.snd).Nodup :=
  greedyAssign_snd_nodup _ _ _

theorem countP_false_eq_zero (l : List ℕ) : l.countP (fun _ => false) = 0 := by
  induction l <;> simp [List.countP_cons, *]

theorem countP_fst_eq (l : List (ℕ × ℕ)) (i : ℕ) :
    l.countP (fun p => decide (p.1 = i)) = (l.map Prod.fst).countP (fun x => decide (x = i)) := by
  rw [List.countP_map]
  rfl

theorem countP_snd_eq (l : List (ℕ × ℕ)) (j : ℕ) :
    l.countP (fun p => decide (p.2 = j)) = (l.map Prod.snd).countP (fun x => decide (x = j)) := by
  rw [List.countP_map]
  rfl

theorem nodup_lt_length_le (l : List ℕ) (n : ℕ) (hnd : l.Nodup)
    (hlt : ∀ x ∈ l, x < n) : l.length ≤ n :=
  calc l.length = l.toFinset.card := (List.toFinset_card_of_nodup hnd).symm
    _ ≤ (Finset.range n).card := Finset.card_le_card
        (fun x hx => Finset.mem_range.mpr (hlt x (List.mem_toFinset.mp hx)))
    _ = n := Finset.card_range n

theorem match_boxes_countP_ref (preds references : List Box) (i : ℕ)
    (hi : i < references.length) :
    (match_boxes preds references).countP (fun m => decide (m.ref = some i)) = 1 := by
  unfold match_boxes
  dsimp only
  rw [List.countP_append, List.countP_append,
      List.countP_map, List.countP_map, List.countP_map]
  have e1 : ((fun m => decide (Match.ref m = some i)) ∘ fun p : ℕ × ℕ =>
      (⟨some p.1, some p.2, snapIou (iouMatrixFn preds references p)⟩ : Match))
      = fun p : ℕ × ℕ => decide (p.1 = i) := by
    funext p
    simp [Function.comp]
  have e2 : ((fun m => decide (Match.ref m = some i)) ∘ fun i' : ℕ =>
      (⟨some i', none, -1⟩ : Match)) = fun i' : ℕ => decide (i' = i) := by
    funext i'
    simp [Function.comp]
  have e3 : ((fun m => decide (Match.ref m = some i)) ∘ fun j : ℕ =>
      (⟨none, some j, 0⟩ : Match)) = fun j : ℕ => false := by
    funext j
    simp [Function.comp]
  rw [e1, e2, e3, countP_false_eq_zero]
  rw [countP_fst_eq]
  rw [countP_eq_ite_of_nodup _ (matchedPairs_fst_nodup preds references) i]
  rw [countP_eq_ite_of_nodup _ ((List.nodup_range _).filter _) i]
  have hmemfilter : i ∈ (List.range references.length).filter
      (fun i' => decide (i' ∉ (matchedPairs preds references).map Prod.fst))
      ↔ i ∉ (matchedPairs preds references).map Prod.fst := by
    rw [List.mem_filter, List.mem_range, decide_eq_true_eq]
    exact ⟨fun h => h.2, fun h => ⟨hi, h⟩⟩
  by_cases hA : i ∈ (matchedPairs preds references).map Prod.fst
  · rw [if_pos hA, if_neg (fun hmem => (hmemfilter.mp hmem) hA)]
  · rw [if_neg hA, if_pos (hmemfilter.mpr hA)]

theorem match_boxes_countP_pred (preds references : List Box) (j : ℕ)
    (hj : j < preds.length) :
    (match_boxes preds references).countP (fun m => decide (m.pred = some j)) = 1 := by
  unfold match_boxes
  dsimp only
  rw [List.countP_append, List.countP_append,
      List.countP_map, List.countP_map, List.countP_map]
  have e1 : ((fun m => decide (Match.pred m = some j)) ∘ fun p : ℕ × ℕ =>
      (⟨some p.1, some p.2, snapIou (iouMatrixFn preds references p)⟩ : Match))
      = fun p : ℕ × ℕ => decide (p.2 = j) := by
    funext p
    simp [Function.comp]
  have e2 : ((fun m => decide (Match.pred m = some j)) ∘ fun i' : ℕ =>
      (⟨some i', none, -1⟩ : Match)) = fun i' : ℕ => false := by
    funext i'
    simp [Function.comp]
  have e3 : ((fun m => decide (Match.pred m = some j)) ∘ fun j' : ℕ =>
      (⟨none, some j', 0⟩ : Match)) = fun j' : ℕ => decide (j' = j) := by
    funext j'
    simp [Function.comp]
  rw [e1, e2, e3, countP_false_eq_zero]
  rw [countP_snd_eq]
  rw [countP_eq_ite_of_nodup _ (matchedPairs_snd_nodup preds references) j]
  rw [countP_eq_ite_of_nodup _ ((List.nodup_range _).filter _) j]
  have hmemfilter : j ∈ (List.range preds.length).filter
      (fun j' => decide (j' ∉ (matchedPairs preds references).map Prod.snd))
      ↔ j ∉ (matchedPairs preds references).map Prod.snd := by
    rw [List.mem_filter, List.mem_range, decide_eq_true_eq]
    exact ⟨fun h => h.2, fun h => ⟨hj, h⟩⟩
  by_cases hA : j ∈ (matchedPairs preds references).map Prod.snd
  · rw [if_pos hA, if_neg (fun hmem => (hmemfilter.mp hmem) hA)]
  · rw [if_neg hA, if_pos (hmemfilter.mpr hA)]

theorem match_boxes_nil : match_boxes [] [] = [] := by
  decide

theorem match_boxes_eq_nil_iff (preds references : List Box) :
    match_boxes preds references = [] ↔ preds = [] ∧ references = [] := by
  constructor
  · intro h
    constructor
    · by_contra hp
      have hlen : 0 < preds.length := List.length_pos.mpr hp
      have h1 := match_boxes_countP_pred preds references 0 hlen
      rw [h] at h1
      simp at h1
    · by_contra hr
      have hlen : 0 < references.length := List.length_pos.mpr hr
      have h1 := match_boxes_countP_ref preds references 0 hlen
      rw [h] at h1
      simp at h1
  · rintro ⟨rfl, rfl⟩
    exact match_boxes_nil

/-! ### Claim theorems

Batteries marks the `Rat` arithmetic operations `@[irreducible]`; concrete
evaluations below go through `decide`, which needs them reducible. -/

attribute [local semireducible] Rat.sub Rat.mul Rat.add Rat.inv Rat.ofScientific

/-- Claim C10: `calculate_iou` is total on all box pairs — with Python's faulting
division (`calculate_iou_checked`) it always returns a value, equal to the
guarded total function, and whenever the denominator is zero (zero-area
reference box in `box1_only` mode, or zero union area in full mode) that value
is `0` rather than a raised `ZeroDivisionError`.  All IoU computations of
`match_boxes` go through this guarded function. -/
theorem calculate_iou_total (box1 box2 : Box) :
    calculate_iou_checked box1 box2 true = some (calculate_iou box1 box2 true)
    ∧ calculate_iou_checked box1 box2 false = some (calculate_iou box1 box2 false)
    ∧ (box_area box1 = 0 → calculate_iou box1 box2 true = 0)
    ∧ (box_area box1 + box_area box2 - intersection_area box1 box2 = 0 →
        calculate_iou box1 box2 false = 0) := by
  refine ⟨?_, ?_, ?_, ?_⟩
  · by_cases h : box_area box1 = 0 <;>
      simp [calculate_iou, calculate_iou_checked, pyDiv, h]
  · by_cases h : box_area box1 + box_area box2 - intersection_area box1 box2 = 0 <;>
      simp [calculate_iou, calculate_iou_checked, pyDiv, h]
  · intro h
    simp [calculate_iou, h]
  · intro h
    simp [calculate_iou, h]

/-- Witness for C10 at a concrete degenerate input: a zero-area reference box
yields IoU `0` in `box1_only` mode, with no fault. -/
theorem calculate_iou_total_witness :
    calculate_iou (intBox 0 0 0 5) (intBox 0 0 1 1) true = 0 :=
  (calculate_iou_total (intBox 0 0 0 5) (intBox 0 0 1 1)).2.2.1 (by decide)

/-- Claim C1 fails on the code: for target `(0,0,2,1)` and a single disjoint-from-
nothing other box `(0,0,1,1)` (whose intersection with the initially empty
accumulated covered set is empty), the claim's penalty is `0` and would give
coverage `1/2`, but `calculate_coverage` subtracts `len(double_coverage) = 1`
(the whole list length) and returns `0`. -/
theorem calculate_coverage_penalty_counterexample :
    calculate_coverage ⟨0, 0, 2, 1⟩ [⟨0, 0, 1, 1⟩] true = 0
    ∧ calculate_coverage_claim ⟨0, 0, 2, 1⟩ [⟨0, 0, 1, 1⟩] = 1/2
    ∧ calculate_coverage ⟨0, 0, 2, 1⟩ [⟨0, 0, 1, 1⟩] true
        ≠ calculate_coverage_claim ⟨0, 0, 2, 1⟩ [⟨0, 0, 1, 1⟩] :=
  ⟨by decide, by decide, by decide⟩

/-- Claim C1 (amended): with the penalty enabled, the subtracted penalty equals
the total number of other boxes (the length of the `double_coverage` list — one
entry per box whether or not its intersection with the accumulated covered set
is non-empty), the covered set is the union of all per-box intersection pixels,
and the resulting covered count is clamped at `0`, hence never negative. -/
theorem calculate_coverage_penalized_spec (box : Box) (l : List Box)
    (h : box_area box ≠ 0) :
    ∃ S : Finset Pixel,
      (∀ p : Pixel, p ∈ S ↔ ∃ ob ∈ l, p ∈ intersection_pixels box ob)
      ∧ (0 : ℤ) ≤ max 0 ((S.card : ℤ) - (l.length : ℤ))
      ∧ calculate_coverage box l true
          = ((max 0 ((S.card : ℤ) - (l.length : ℤ)) : ℤ) : ℚ) / box_area box := by
  refine ⟨(coverageLoop box l ∅ []).1, ?_, le_max_left _ _, ?_⟩
  · intro p
    rw [coverageLoop_fst_mem]
    simp
  · rw [calculate_coverage_eq _ _ _ h]
    simp

/-- Witness for the amended C1 at the counterexample input. -/
theorem calculate_coverage_penalized_spec_witness :
    ∃ S : Finset Pixel,
      (∀ p : Pixel, p ∈ S ↔ ∃ ob ∈ [(⟨0, 0, 1, 1⟩ : Box)],
          p ∈ intersection_pixels ⟨0, 0, 2, 1⟩ ob)
      ∧ (0 : ℤ) ≤ max 0 ((S.card : ℤ) - (1 : ℤ))
      ∧ calculate_coverage ⟨0, 0, 2, 1⟩ [⟨0, 0, 1, 1⟩] true
          = ((max 0 ((S.card : ℤ) - (1 : ℤ)) : ℤ) : ℚ) / box_area ⟨0, 0, 2, 1⟩ :=
  calculate_coverage_penalized_spec ⟨0, 0, 2, 1⟩ [⟨0, 0, 1, 1⟩] (by decide)

/-- Claim C3 fails on the code for the exact engine on a fractional-coordinate
target: the ordered box `(0.9, 0.9, 1, 1)` has area `1/100` but its pixel
discretization against an identical box yields one pixel, so
`calculate_coverage` returns `100 > 1`. -/
theorem coverage_unit_interval_counterexample :
    ((0.9 : ℚ) ≤ 1 ∧ (0.9 : ℚ) ≤ 1)
    ∧ calculate_coverage ⟨0.9, 0.9, 1, 1⟩ [⟨0.9, 0.9, 1, 1⟩] false = 100
    ∧ ¬(calculate_coverage ⟨0.9, 0.9, 1, 1⟩ [⟨0.9, 0.9, 1, 1⟩] false ≤ 1) :=
  ⟨by decide, by decide, by decide⟩

/-- Claim C3 (amended): the fast variant returns a value in `[0,1]` whenever it
returns (it faults on an empty other-box list with a non-zero-area target), for
any ordered target box; the exact variant returns a value in `[0,1]` for every
ordered target box with integer coordinates (for fractional targets it can
exceed `1`, per the counterexample). -/
theorem coverage_in_unit_interval :
    (∀ (a b c d : ℤ), a ≤ c → b ≤ d → ∀ (l : List Box) (pd : Bool),
        0 ≤ calculate_coverage (intBox a b c d) l pd
          ∧ calculate_coverage (intBox a b c d) l pd ≤ 1)
    ∧ (∀ (box : Box) (l : List Box) (pd : Bool) (v : ℚ),
        box.x1 ≤ box.x2 → box.y1 ≤ box.y2 →
        calculate_coverage_fast box l pd = some v → 0 ≤ v ∧ v ≤ 1) :=
  ⟨fun a b c d hac hbd l pd => calculate_coverage_int_bounds a b c d hac hbd l pd,
   fun box l pd v hx hy hv => calculate_coverage_fast_bounds box l pd v hx hy hv⟩

/-- Witness for the amended C3 at concrete inputs, both variants. -/
theorem coverage_in_unit_interval_witness :
    (0 ≤ calculate_coverage (intBox 0 0 2 1) [intBox 0 0 1 1] true
      ∧ calculate_coverage (intBox 0 0 2 1) [intBox 0 0 1 1] true ≤ 1)
    ∧ (0 ≤ (1 : ℚ) ∧ (1 : ℚ) ≤ 1) :=
  ⟨coverage_in_unit_interval.1 0 0 2 1 (by decide) (by decide) [intBox 0 0 1 1] true,
   coverage_in_unit_interval.2 ⟨0, 0, 2, 1⟩ [⟨0, 0, 1, 1⟩, ⟨0, 0, 1, 1⟩] false 1
     (by decide) (by decide) (by decide)⟩

/-- Claim C4 fails on the code: the degenerate box `(0,0,0,0)` is a valid box
with `x1 ≤ x2` and `y1 ≤ y2`, but its zero area makes `calculate_coverage`
return `0`, so `mean_coverage` on the identical singleton lists returns
`{"coverage": 0}`, not `1.0`. -/
theorem mean_coverage_identical_counterexample :
    ((0 : ℚ) ≤ 0 ∧ (0 : ℚ) ≤ 0)
    ∧ mean_coverage [⟨0, 0, 0, 0⟩] [⟨0, 0, 0, 0⟩] = .dict 0
    ∧ mean_coverage [⟨0, 0, 0, 0⟩] [⟨0, 0, 0, 0⟩] ≠ .dict 1 :=
  ⟨⟨le_refl 0, le_refl 0⟩, by decide, by decide⟩

/-- Claim C4 (amended): for every non-empty list of boxes with integer
coordinates and positive area, `mean_coverage` of the list against itself
returns `{"coverage": 1}`.  (Zero-area boxes drop the mean below `1`, and
fractional coordinates break the pixel/area correspondence.) -/
theorem mean_coverage_identical_one (L : List Box) (hne : L ≠ [])
    (hint : ∀ box ∈ L, ∃ a b c d : ℤ, box = intBox a b c d ∧ a < c ∧ b < d) :
    mean_coverage L L = .dict 1 := by
  have hone : ∀ box ∈ L, calculate_coverage box L false = 1 := by
    intro box hb
    obtain ⟨a, b, c, d, rfl, hac, hbd⟩ := hint box hb
    exact calculate_coverage_self_int a b c d hac hbd L hb
  unfold mean_coverage
  dsimp only
  have hall : ∀ x ∈ L.map (fun box1 => calculate_coverage box1 L false)
      ++ L.map (fun box2 => calculate_coverage box2 L false), x = (1 : ℚ) := by
    intro x hx
    rw [List.mem_append] at hx
    rcases hx with hx | hx <;>
      · rw [List.mem_map] at hx
        obtain ⟨box, hb, rfl⟩ := hx
        exact hone box hb
  have hlen : (L.map (fun box1 => calculate_coverage box1 L false)
      ++ L.map (fun box2 => calculate_coverage box2 L false)).length ≠ 0 := by
    simp only [List.length_append, List.length_map]
    intro hcon
    exact hne (List.length_eq_zero.mp (by omega))
  rw [if_neg hlen, list_sum_all_one _ hall]
  rw [div_self (by exact_mod_cast hlen)]

/-- Witness for the amended C4 on a concrete singleton list. -/
theorem mean_coverage_identical_one_witness :
    mean_coverage [intBox 0 0 2 1] [intBox 0 0 2 1] = .dict 1 :=
  mean_coverage_identical_one [intBox 0 0 2 1] (by simp)
    (fun box hb => ⟨0, 0, 2, 1, by simpa using hb, by omega, by omega⟩)

/-- Claim C5 fails on the code at the empty input: with no comparisons,
`mean_coverage` returns the bare number `0`, not a `{"coverage": …}` mapping
(whose claimed value there would be `0`). -/
theorem mean_coverage_shape_counterexample :
    mean_coverage [] [] = .scalar 0
    ∧ MeanCoverageResult.scalar 0 ≠ MeanCoverageResult.dict 0 :=
  ⟨by decide, by decide⟩

/-- Claim C5 (amended): when at least one comparison exists (some list is
non-empty), `mean_coverage` returns the mapping whose `coverage` field is the
mean, over both directions combined, of the exact coverage of every reference
box by the full prediction set and of every prediction box by the full
reference set; when no comparisons exist it returns the bare number `0`
instead of a mapping. -/
theorem mean_coverage_spec (preds references : List Box) :
    (preds = [] ∧ references = [] → mean_coverage preds references = .scalar 0)
    ∧ (¬(preds = [] ∧ references = []) →
        mean_coverage preds references
          = .dict ((references.map (fun b => calculate_coverage b preds false)
              ++ preds.map (fun b => calculate_coverage b references false)).sum
            / ((references.length + preds.length : ℕ) : ℚ))) := by
  constructor
  · rintro ⟨rfl, rfl⟩
    rfl
  · intro h
    unfold mean_coverage
    dsimp only
    have hlen : (references.map (fun box1 => calculate_coverage box1 preds false)
        ++ preds.map (fun box2 => calculate_coverage box2 references false)).length
        = references.length + preds.length := by
      simp
    have hne : (references.map (fun box1 => calculate_coverage box1 preds false)
        ++ preds.map (fun box2 => calculate_coverage box2 references false)).length ≠ 0 := by
      rw [hlen]
      intro hcon
      exact h ⟨List.length_eq_zero.mp (by omega), List.length_eq_zero.mp (by omega)⟩
    rw [if_neg hne, hlen]

/-- Witness for the amended C5 on a concrete one-reference input. -/
theorem mean_coverage_spec_witness :
    mean_coverage [] [intBox 0 0 1 1]
      = .dict ((([intBox 0 0 1 1].map (fun b => calculate_coverage b [] false)
          ++ ([] : List Box).map (fun b => calculate_coverage b [intBox 0 0 1 1] false)).sum)
        / ((1 + 0 : ℕ) : ℚ)) :=
  (mean_coverage_spec [] [intBox 0 0 1 1]).2 (by simp)

/-- Claim C2 fails on the code: for the single box `(0,0,2,1)` as both prediction
and reference with threshold `1/2`, the recall direction calls the coverage
function without `penalize_double`, so it is unpenalized and yields recall `1`,
while the claim (penalty on both directions) would yield recall `0`. -/
theorem precision_recall_counterexample :
    precision_recall [⟨0, 0, 2, 1⟩] [⟨0, 0, 2, 1⟩] (1/2) 8 true = some ⟨0, 1⟩
    ∧ precision_recall_claim [⟨0, 0, 2, 1⟩] [⟨0, 0, 2, 1⟩] (1/2) = some ⟨0, 0⟩
    ∧ precision_recall [⟨0, 0, 2, 1⟩] [⟨0, 0, 2, 1⟩] (1/2) 8 true
        ≠ precision_recall_claim [⟨0, 0, 2, 1⟩] [⟨0, 0, 2, 1⟩] (1/2) :=
  ⟨by decide, by decide, by decide⟩

/-- Claim C2 (amended): for non-empty predictions and references,
`precision_recall` with `penalize_double=True` computes each prediction's
coverage by the full reference set with the exact engine and the penalty
enabled, but each reference's coverage by the full prediction set with the
exact engine and the penalty disabled (the argument is omitted in the recall
direction, so it takes its default `False`); precision and recall are the
fractions whose coverage is strictly greater than the threshold. -/
theorem precision_recall_penalized (preds references : List Box) (threshold : ℚ)
    (workers : ℕ) (hp : preds ≠ []) (hr : references ≠ []) :
    precision_recall preds references threshold workers true
      = some ⟨((preds.countP
            (fun p => decide (threshold < calculate_coverage p references true))) : ℚ)
          / (preds.length : ℚ),
        ((references.countP
            (fun r => decide (threshold < calculate_coverage r preds false))) : ℚ)
          / (references.length : ℚ)⟩ := by
  have h1 : ¬references.length = 0 := fun hc => hr (List.length_eq_zero.mp hc)
  have h2 : ¬preds.length = 0 := fun hc => hp (List.length_eq_zero.mp hc)
  unfold precision_recall
  rw [if_neg h1, if_neg h2]
  dsimp only
  rw [if_pos rfl, mapOption_map, mapOption_map]
  dsimp only
  rw [List.map_map, List.map_map]
  have hsum1 := sum_indicator_countP
    (fun p => threshold < calculate_coverage p references true) preds
  have hsum2 := sum_indicator_countP
    (fun r => threshold < calculate_coverage r preds false) references
  simp only [Function.comp_def] at *
  rw [hsum1, hsum2, List.length_map, List.length_map]

/-- Witness for the amended C2 at the counterexample input. -/
theorem precision_recall_penalized_witness :
    precision_recall [⟨0, 0, 2, 1⟩] [⟨0, 0, 2, 1⟩] (1/2) 8 true
      = some ⟨(([(⟨0, 0, 2, 1⟩ : Box)].countP
            (fun p => decide ((1:ℚ)/2 < calculate_coverage p [⟨0, 0, 2, 1⟩] true))) : ℚ)
          / (([(⟨0, 0, 2, 1⟩ : Box)].length : ℕ) : ℚ),
        (([(⟨0, 0, 2, 1⟩ : Box)].countP
            (fun r => decide ((1:ℚ)/2 < calculate_coverage r [⟨0, 0, 2, 1⟩] false))) : ℚ)
          / (([(⟨0, 0, 2, 1⟩ : Box)].length : ℕ) : ℚ)⟩ :=
  precision_recall_penalized [⟨0, 0, 2, 1⟩] [⟨0, 0, 2, 1⟩] (1/2) 8
    (by simp) (by simp)

theorem countP_true_eq_length (l : List (ℕ × ℕ)) :
    l.countP (fun _ => true) = l.length := by
  induction l <;> simp [List.countP_cons, *]

/-- Claim C6: every reference index appears in exactly one `Match` and every
prediction index appears in exactly one `Match`; each `Match` is a paired match
(both indices present), an unmatched-reference match (prediction `None`, iou
`-1.0`), or an unmatched-prediction match (reference `None`, iou `0.0`); and
the number of paired matches is at most `min(len(preds), len(references))`. -/
theorem match_boxes_partition (preds references : List Box) :
    (∀ m ∈ match_boxes preds references,
        (∃ i j, m.ref = some i ∧ m.pred = some j)
        ∨ (m.pred = none ∧ m.iou = -1 ∧ ∃ i, m.ref = some i)
        ∨ (m.ref = none ∧ m.iou = 0 ∧ ∃ j, m.pred = some j))
    ∧ (∀ i, i < references.length →
        (match_boxes preds references).countP (fun m => decide (m.ref = some i)) = 1)
    ∧ (∀ j, j < preds.length →
        (match_boxes preds references).countP (fun m => decide (m.pred = some j)) = 1)
    ∧ (match_boxes preds references).countP
        (fun m => m.ref.isSome && m.pred.isSome) ≤ min preds.length references.length := by
  refine ⟨?_, fun i hi => match_boxes_countP_ref preds references i hi,
    fun j hj => match_boxes_countP_pred preds references j hj, ?_⟩
  · intro m hm
    unfold match_boxes at hm
    dsimp only at hm
    rcases List.mem_append.mp hm with hm' | hm'
    · rcases List.mem_append.mp hm' with hm2 | hm2
      · rw [List.mem_map] at hm2
        obtain ⟨p, _, rfl⟩ := hm2
        exact Or.inl ⟨p.1, p.2, rfl, rfl⟩
      · rw [List.mem_map] at hm2
        obtain ⟨i', _, rfl⟩ := hm2
        exact Or.inr (Or.inl ⟨rfl, rfl, i', rfl⟩)
    · rw [List.mem_map] at hm'
      obtain ⟨j', _, rfl⟩ := hm'
      exact Or.inr (Or.inr ⟨rfl, rfl, j', rfl⟩)
  · unfold match_boxes
    dsimp only
    rw [List.countP_append, List.countP_append,
        List.countP_map, List.countP_map, List.countP_map]
    have e1 : ((fun m : Match => m.ref.isSome && m.pred.isSome) ∘ fun p : ℕ × ℕ =>
        (⟨some p.1, some p.2, snapIou (iouMatrixFn preds references p)⟩ : Match))
        = fun _ : ℕ × ℕ => true := by
      funext p
      simp [Function.comp]
    have e2 : ((fun m : Match => m.ref.isSome && m.pred.isSome) ∘ fun i' : ℕ =>
        (⟨some i', none, -1⟩ : Match)) = fun _ : ℕ => false := by
      funext i'
      simp [Function.comp]
    have e3 : ((fun m : Match => m.ref.isSome && m.pred.isSome) ∘ fun j' : ℕ =>
        (⟨none, some j', 0⟩ : Match)) = fun _ : ℕ => false := by
      funext j'
      simp [Function.comp]
    rw [e1, e2, e3, countP_true_eq_length, countP_false_eq_zero, countP_false_eq_zero]
    have hfst : (matchedPairs preds references).length ≤ references.length := by
      have h := nodup_lt_length_le ((matchedPairs preds references).map Prod.fst)
        references.length (matchedPairs_fst_nodup preds references) ?_
      · rwa [List.length_map] at h
      · intro x hx
        rw [List.mem_map] at hx
        obtain ⟨p, hp, rfl⟩ := hx
        exact (matchedPairs_mem preds references p hp).1
    have hsnd : (matchedPairs preds references).length ≤ preds.length := by
      have h := nodup_lt_length_le ((matchedPairs preds references).map Prod.snd)
        preds.length (matchedPairs_snd_nodup preds references) ?_
      · rwa [List.length_map] at h
      · intro x hx
        rw [List.mem_map] at hx
        obtain ⟨p, hp, rfl⟩ := hx
        exact (matchedPairs_mem preds references p hp).2
    simp only [Nat.add_zero]
    exact le_min hsnd hfst

/-- Witness for C6: a single reference and no predictions yield exactly one
match carrying reference index `0`. -/
theorem match_boxes_partition_witness :
    (match_boxes [] [intBox 0 0 1 1]).countP (fun m => decide (m.ref = some 0)) = 1 :=
  (match_boxes_partition [] [intBox 0 0 1 1]).2.1 0 (by decide)

/-- Claim C7: for ordered boxes, every `Match` iou is `-1.0`, `0.0`, or in
`[0,1]`, and any paired match whose raw reference-normalized IoU exceeds `0.95`
is reported as exactly `1.0`. -/
theorem match_boxes_iou_range (preds references : List Box)
    (hp : ∀ b ∈ preds, b.x1 ≤ b.x2 ∧ b.y1 ≤ b.y2)
    (hr : ∀ b ∈ references, b.x1 ≤ b.x2 ∧ b.y1 ≤ b.y2) :
    ∀ m ∈ match_boxes preds references,
      (m.iou = -1 ∨ m.iou = 0 ∨ (0 ≤ m.iou ∧ m.iou ≤ 1))
      ∧ (∀ i j, m.ref = some i → m.pred = some j →
          0.95 < calculate_iou (references.getD i ⟨0, 0, 0, 0⟩)
            (preds.getD j ⟨0, 0, 0, 0⟩) true →
          m.iou = 1) := by
  intro m hm
  unfold match_boxes at hm
  dsimp only at hm
  rcases List.mem_append.mp hm with hm' | hm'
  · rcases List.mem_append.mp hm' with hm2 | hm2
    · rw [List.mem_map] at hm2
      obtain ⟨p, hpmem, rfl⟩ := hm2
      have hlt := matchedPairs_mem preds references p hpmem
      have hrb : references.getD p.1 ⟨0, 0, 0, 0⟩ ∈ references := by
        rw [List.getD_eq_getElem?_getD, List.getElem?_eq_getElem hlt.1]
        exact List.getElem_mem _
      have hb := hr _ hrb
      have hbounds := calculate_iou_box1_bounds (references.getD p.1 ⟨0, 0, 0, 0⟩)
        (preds.getD p.2 ⟨0, 0, 0, 0⟩) hb.1 hb.2
      constructor
      · refine Or.inr (Or.inr ?_)
        show 0 ≤ snapIou (iouMatrixFn preds references p)
          ∧ snapIou (iouMatrixFn preds references p) ≤ 1
        unfold iouMatrixFn
        exact snapIou_bounds _ hbounds.1 hbounds.2
      · intro i j hi hj hgt
        have hpi : p.1 = i := by simpa using hi
        have hpj : p.2 = j := by simpa using hj
        show snapIou (iouMatrixFn preds references p) = 1
        unfold iouMatrixFn snapIou
        rw [if_pos (by rw [hpi, hpj]; exact hgt)]
    · rw [List.mem_map] at hm2
      obtain ⟨i', _, rfl⟩ := hm2
      refine ⟨Or.inl rfl, fun i j hi hj _ => ?_⟩
      simp at hj
  · rw [List.mem_map] at hm'
    obtain ⟨j', _, rfl⟩ := hm'
    refine ⟨Or.inr (Or.inl rfl), fun i j hi hj _ => ?_⟩
    simp at hi

/-- Witness for C7: identical unit boxes give raw IoU `1 > 0.95`, reported as
exactly `1`. -/
theorem match_boxes_iou_range_witness :
    (⟨some 0, some 0, (1 : ℚ)⟩ : Match).iou = 1 :=
  ((match_boxes_iou_range [intBox 0 0 1 1] [intBox 0 0 1 1]
      (by decide) (by decide)) ⟨some 0, some 0, 1⟩ (by decide)).2 0 0 rfl rfl (by decide)

/-- Claim C8: `penalized_iou_score` raises a division-by-zero fault exactly when
both input lists are empty (the match list is empty exactly then), and
otherwise returns the arithmetic mean of all match IoUs, the `-1.0` and `0.0`
sentinels included. -/
theorem penalized_iou_score_spec (preds references : List Box) :
    (penalized_iou_score preds references = none ↔ preds = [] ∧ references = [])
    ∧ (∀ v, penalized_iou_score preds references = some v →
        v = ((match_boxes preds references).map Match.iou).sum
            / ((match_boxes preds references).length : ℚ)) := by
  unfold penalized_iou_score pyDiv
  dsimp only
  by_cases hlen : ((match_boxes preds references).length : ℚ) = 0
  · rw [if_pos hlen]
    have hnil : match_boxes preds references = [] :=
      List.length_eq_zero.mp (by exact_mod_cast hlen)
    constructor
    · exact ⟨fun _ => (match_boxes_eq_nil_iff preds references).mp hnil, fun _ => rfl⟩
    · intro v hv
      cases hv
  · rw [if_neg hlen]
    constructor
    · constructor
      · intro h
        cases h
      · rintro ⟨rfl, rfl⟩
        exact absurd (by rw [match_boxes_nil]; rfl) hlen
    · intro v hv
      cases hv
      rfl

/-- Witness for C8: the empty-input fault case. -/
theorem penalized_iou_score_spec_witness :
    penalized_iou_score [] [] = none :=
  (penalized_iou_score_spec [] []).1.mpr ⟨rfl, rfl⟩

/-! ### Rank-accuracy machinery -/

theorem mem_rank_pairs (preds : List ℚ) (i j : ℕ) (b : Bool) :
    (i, j, b) ∈ rank_pairs preds
      ↔ i < preds.length ∧ j < preds.length ∧ i ≠ j
        ∧ b = decide (preds.getD j 0 < preds.getD i 0) := by
  unfold rank_pairs
  simp only [List.mem_bind, List.mem_filterMap, List.mem_range]
  constructor
  · rintro ⟨i', hi', j', hj', hf⟩
    by_cases hij : i' = j'
    · rw [if_pos hij] at hf
      cases hf
    · rw [if_neg hij] at hf
      simp only [Option.some.injEq, Prod.mk.injEq] at hf
      obtain ⟨rfl, rfl, hb⟩ := hf
      exact ⟨hi', hj', hij, hb.symm⟩
  · rintro ⟨hi, hj, hij, rfl⟩
    exact ⟨i, hi, j, hj, by rw [if_neg hij]⟩

theorem filterMap_ne_length_of_not_mem (g : ℕ → ℕ × ℕ × Bool) (i : ℕ) (l : List ℕ)
    (hni : i ∉ l) :
    (l.filterMap (fun j => if i = j then none else some (g j))).length = l.length := by
  induction l with
  | nil => rfl
  | cons a t ih =>
      have hia : i ≠ a := fun h => hni (h ▸ List.mem_cons_self a t)
      have hnt : i ∉ t := fun h => hni (List.mem_cons_of_mem a h)
      rw [List.filterMap_cons, if_neg hia]
      simp [ih hnt]

theorem filterMap_ne_length_of_mem (g : ℕ → ℕ × ℕ × Bool) (i : ℕ) (l : List ℕ)
    (hmem : i ∈ l) (hnd : l.Nodup) :
    (l.filterMap (fun j => if i = j then none else some (g j))).length = l.length - 1 := by
  induction l with
  | nil => cases hmem
  | cons a t ih =>
      rw [List.nodup_cons] at hnd
      rw [List.filterMap_cons]
      by_cases hia : i = a
      · rw [if_pos hia]
        rw [filterMap_ne_length_of_not_mem g i t (hia ▸ hnd.1)]
        simp
      · rw [if_neg hia]
        have hmt : i ∈ t := by
          rcases List.mem_cons.mp hmem with h | h
          · exact absurd h hia
          · exact h
        have ht1 : 1 ≤ t.length := List.length_pos.mpr (List.ne_nil_of_mem hmt)
        simp only [List.length_cons, ih hmt hnd.2]
        omega

theorem rank_pairs_length (preds : List ℚ) :
    (rank_pairs preds).length = preds.length * (preds.length - 1) := by
  unfold rank_pairs
  rw [List.length_bind]
  have hmap : (List.range preds.length).map (fun i =>
      ((List.range preds.length).filterMap (fun j =>
        if i = j then none
        else some (i, j, decide (preds.getD j 0 < preds.getD i 0)))).length)
      = (List.range preds.length).map (fun _ => preds.length - 1) := by
    apply List.map_congr_left
    intro i hi
    have h := filterMap_ne_length_of_mem
      (fun j => (i, j, decide (preds.getD j 0 < preds.getD i 0))) i _ hi (List.nodup_range _)
    rwa [List.length_range] at h
  simp only [Function.comp_def]
  rw [hmap, sum_map_range, Finset.sum_const, Finset.card_range, smul_eq_mul]

theorem length_filter_range (n : ℕ) (p : ℕ → Bool) :
    ((List.range n).filter p).length = ∑ j ∈ Finset.range n, if p j = true then 1 else 0 := by
  induction n with
  | zero => simp
  | succ n ih =>
      rw [List.range_succ, List.filter_append, List.length_append, ih, Finset.sum_range_succ]
      congr 1
      by_cases h : p n = true <;> simp [List.filter_cons, h]

theorem rank_accuracy_formula (preds references : List ℚ) (n : ℕ)
    (hp : preds.length = n) (hr : references.length = n) (h2 : 2 ≤ n) :
    rank_accuracy preds references
      = some ((((Finset.range n ×ˢ Finset.range n).filter
            (fun q : ℕ × ℕ => q.1 ≠ q.2
              ∧ ((references.getD q.2 0 < references.getD q.1 0)
                ↔ (preds.getD q.2 0 < preds.getD q.1 0)))).card : ℚ)
          / ((n * (n - 1) : ℕ) : ℚ)) := by
  unfold rank_accuracy pyDiv
  dsimp only
  have hlen : (rank_pairs preds).length = n * (n - 1) := by rw [rank_pairs_length, hp]
  have hpos : 0 < n * (n - 1) := Nat.mul_pos (by omega) (by omega)
  have hlen0 : ¬((rank_pairs preds).length : ℚ) = 0 := by
    rw [hlen]
    exact_mod_cast Nat.pos_iff_ne_zero.mp hpos
  rw [if_neg hlen0]
  congr 1
  rw [hlen]
  congr 1
  norm_cast
  rw [hr, sum_map_range, Finset.card_filter, Finset.sum_product]
  apply Finset.sum_congr rfl
  intro i hi
  rw [length_filter_range]
  apply Finset.sum_congr rfl
  intro j hj
  rw [Finset.mem_range] at hi hj
  apply if_congr _ rfl rfl
  rw [decide_eq_true_eq, mem_rank_pairs, hp]
  constructor
  · rintro ⟨_, _, hij, hb⟩
    exact ⟨hij, by rwa [decide_eq_decide] at hb⟩
  · rintro ⟨hij, hiff⟩
    exact ⟨hi, hj, hij, by rwa [decide_eq_decide]⟩

/-- Claim C9: for aligned score lists of equal length `n ≥ 2`, `rank_accuracy`
returns the number of ordered index pairs `(i, j)` with `i ≠ j` on which the
reference order agrees with the prediction order, divided by `n·(n-1)`;
identical lists give exactly `1.0`; with fewer than 2 items the division
faults. -/
theorem rank_accuracy_pairwise (preds references : List ℚ) :
    (∀ n, preds.length = n → references.length = n → 2 ≤ n →
        rank_accuracy preds references
          = some ((((Finset.range n ×ˢ Finset.range n).filter
                (fun q : ℕ × ℕ => q.1 ≠ q.2
                  ∧ ((references.getD q.2 0 < references.getD q.1 0)
                    ↔ (preds.getD q.2 0 < preds.getD q.1 0)))).card : ℚ)
              / ((n * (n - 1) : ℕ) : ℚ)))
    ∧ (2 ≤ preds.length → rank_accuracy preds preds = some 1)
    ∧ (preds.length < 2 → rank_accuracy preds references = none) := by
  refine ⟨fun n hp hr h2 => rank_accuracy_formula preds references n hp hr h2, ?_, ?_⟩
  · intro h2
    rw [rank_accuracy_formula preds preds preds.length rfl rfl h2]
    congr 1
    have hfilter : (Finset.range preds.length ×ˢ Finset.range preds.length).filter
        (fun q : ℕ × ℕ => q.1 ≠ q.2
          ∧ ((preds.getD q.2 0 < preds.getD q.1 0) ↔ (preds.getD q.2 0 < preds.getD q.1 0)))
        = (Finset.range preds.length ×ˢ Finset.range preds.length).filter
            (fun q : ℕ × ℕ => q.1 ≠ q.2) := by
      apply Finset.filter_congr
      intro q _
      simp
    rw [hfilter]
    have hcard : ((Finset.range preds.length ×ˢ Finset.range preds.length).filter
        (fun q : ℕ × ℕ => q.1 ≠ q.2)).card = preds.length * (preds.length - 1) := by
      rw [Finset.card_filter, Finset.sum_product]
      have hinner : ∀ i ∈ Finset.range preds.length,
          (∑ j ∈ Finset.range preds.length, if i ≠ j then 1 else 0)
            = preds.length - 1 := by
        intro i hi
        rw [← Finset.card_filter, Finset.filter_ne, Finset.card_erase_of_mem hi,
            Finset.card_range]
      rw [Finset.sum_congr rfl hinner, Finset.sum_const, Finset.card_range, smul_eq_mul]
    rw [hcard]
    apply div_self
    have hpos : 0 < preds.length * (preds.length - 1) := Nat.mul_pos (by omega) (by omega)
    exact_mod_cast Nat.pos_iff_ne_zero.mp hpos
  · intro hlt
    unfold rank_accuracy pyDiv
    dsimp only
    have hlen : (rank_pairs preds).length = 0 := by
      rw [rank_pairs_length]
      have h01 : preds.length = 0 ∨ preds.length = 1 := by omega
      rcases h01 with h | h <;> simp [h]
    rw [if_pos (by rw [hlen]; simp)]

/-- Witness for C9: identical three-element score lists give rank accuracy `1`. -/
theorem rank_accuracy_pairwise_witness :
    rank_accuracy [3, 1, 2] [3, 1, 2] = some 1 :=
  (rank_accuracy_pairwise [3, 1, 2] [3, 1, 2]).2.1 (by decide)

end Surya
